import Mathlib

/-!
# Verification of a depth-cutoff parallel merge sort

Shallow embedding of `mergesort.c`.  The dataset `A` and the scratch
buffer `B` (global `int *` arrays in the C code) are modelled as total
maps `Nat → Int` packaged in a `State`.  The `merge`, `my_mergesort`,
`parallel_mergesort` and `buildArgs` functions are translated directly
from the C source.  The pthread fan-out of `parallel_mergesort` is
linearized (left child first, then right child): the two children
operate on disjoint index ranges of both buffers and the parent blocks
on a join barrier before merging, so the linearization computes the
same final state as any interleaved execution.
-/

/-- The shared mutable buffers: `A` is the dataset, `B` the scratch buffer. -/
structure State where
  A : Nat → Int
  B : Nat → Int

/-- Single array-cell store `f[k] = v`. -/
def upd (f : Nat → Int) (k : Nat) (v : Int) : Nat → Int :=
  fun n => if n = k then v else f n

/-- One of the two leftover-copying `while` loops of `merge`:
`while (i <= iend) B[k++] = A[i++];` — returns the new buffer and the
final value of `k`. -/
def copyLoop (A : Nat → Int) (iend : Nat) (i k : Nat) (B : Nat → Int) :
    (Nat → Int) × Nat :=
  if h : i ≤ iend then
    copyLoop A iend (i + 1) (k + 1) (upd B k (A i))
  else
    (B, k)
termination_by iend + 1 - i
decreasing_by omega

/-- The merge phase of `merge`: the main two-pointer `while` loop
followed by the two leftover loops, all writing into `B`. -/
def mergeLoop (A : Nat → Int) (leftend rightend : Nat) (i j k : Nat)
    (B : Nat → Int) : Nat → Int :=
  if h : i ≤ leftend ∧ j ≤ rightend then
    if A i ≤ A j then
      mergeLoop A leftend rightend (i + 1) j (k + 1) (upd B k (A i))
    else
      mergeLoop A leftend rightend i (j + 1) (k + 1) (upd B k (A j))
  else
    let pl := copyLoop A leftend i k B
    (copyLoop A rightend j pl.2 pl.1).1
termination_by (leftend + 1 - i) + (rightend + 1 - j)
decreasing_by all_goals omega

/-- `merge(leftstart, leftend, rightstart, rightend)` from `mergesort.c`:
merge the two subranges of `A` into `B`, then
`memcpy(&A[leftstart], &B[leftstart], (rightend - leftstart + 1) * sizeof(int))`. -/
def merge (s : State) (leftstart leftend rightstart rightend : Nat) : State :=
  let Bn := mergeLoop s.A leftend rightend leftstart rightstart leftstart s.B
  { A := fun n => if leftstart ≤ n ∧ n ≤ rightend then Bn n else s.A n
    B := Bn }

/-- The midpoint computation `left + (right - left) / 2` shared by
`my_mergesort` and `parallel_mergesort`. -/
def midSplit (left right : Nat) : Nat :=
  left + (right - left) / 2

/-- `my_mergesort(left, right)`: the serial recursive merge sort. -/
def my_mergesort (s : State) (left right : Nat) : State :=
  if _h : left ≥ right then
    s
  else
    let mid := midSplit left right
    let s1 := my_mergesort s left mid
    let s2 := my_mergesort s1 (mid + 1) right
    merge s2 left mid (mid + 1) right
termination_by right - left
decreasing_by
  all_goals simp only [midSplit] at *; omega

/-- The per-thread argument struct (`struct argument`). -/
structure Argument where
  left : Nat
  right : Nat
  level : Nat

/-- `buildArgs(left, right, level)`: allocate and fill an argument struct. -/
def buildArgs (left right level : Nat) : Argument :=
  { left := left, right := right, level := level }

/-- `parallel_mergesort(arg)` with the global `cutoff` passed explicitly.
The two spawned threads are linearized (left child, then right child);
this is faithful because they own disjoint ranges of `A` and `B` and the
parent joins both before merging. -/
def parallel_mergesort (cutoff : Nat) (s : State) (a : Argument) : State :=
  if _h : a.left ≥ a.right then
    s
  else if a.level ≥ cutoff then
    my_mergesort s a.left a.right
  else
    let mid := midSplit a.left a.right
    let s1 := parallel_mergesort cutoff s (buildArgs a.left mid (a.level + 1))
    let s2 := parallel_mergesort cutoff s1 (buildArgs (mid + 1) a.right (a.level + 1))
    merge s2 a.left mid (mid + 1) a.right
termination_by a.right - a.left
decreasing_by
  all_goals simp only [midSplit, buildArgs] at *; omega

/-- The list of values `f lo, f (lo+1), …, f (lo+len-1)`: the contents of
buffer `f` on the index window starting at `lo` of length `len`. -/
def sliceList (f : Nat → Int) : Nat → Nat → List Int
  | _, 0 => []
  | lo, n + 1 => f lo :: sliceList f (lo + 1) n

/-- List-level two-pointer merge, mirroring the main loop of `merge`:
on a tie (`a ≤ b` with `a = b`) the left element is taken first, so this
is the canonical stable merge. -/
def mergeList : List Int → List Int → List Int
  | [], r => r
  | l, [] => l
  | a :: l, b :: r =>
    if a ≤ b then a :: mergeList l (b :: r) else b :: mergeList (a :: l) r

/-! ## Basic lemmas about `sliceList` -/

theorem sliceList_congr (f g : Nat → Int) : ∀ (lo len : Nat),
    (∀ m, m < len → f (lo + m) = g (lo + m)) →
    sliceList f lo len = sliceList g lo len := by
  intro lo len
  induction len generalizing lo with
  | zero => intro _; rfl
  | succ n ih =>
    intro h
    have h0 : f lo = g lo := by simpa using h 0 (Nat.succ_pos n)
    have ht : sliceList f (lo + 1) n = sliceList g (lo + 1) n := by
      refine ih (lo + 1) ?_
      intro m hm
      have e : lo + 1 + m = lo + (m + 1) := by omega
      rw [e]
      exact h (m + 1) (by omega)
    simp [sliceList, h0, ht]

theorem sliceList_pointwise (f g : Nat → Int) : ∀ (lo len : Nat),
    sliceList f lo len = sliceList g lo len →
    ∀ m, m < len → f (lo + m) = g (lo + m) := by
  intro lo len
  induction len generalizing lo with
  | zero => intro _ m hm; omega
  | succ n ih =>
    intro h m hm
    simp only [sliceList, List.cons.injEq] at h
    cases m with
    | zero => simpa using h.1
    | succ m =>
      have := ih (lo + 1) h.2 m (by omega)
      have e : lo + (m + 1) = lo + 1 + m := by omega
      rw [e]
      exact this

theorem sliceList_split (f : Nat → Int) : ∀ (m n lo : Nat),
    sliceList f lo (m + n) = sliceList f lo m ++ sliceList f (lo + m) n := by
  intro m
  induction m with
  | zero => intro n lo; simp [sliceList]
  | succ k ih =>
    intro n lo
    have e1 : k + 1 + n = (k + n) + 1 := by omega
    rw [e1]
    simp only [sliceList, List.cons_append]
    rw [ih n (lo + 1)]
    have e2 : lo + 1 + k = lo + (k + 1) := by omega
    rw [e2]

theorem mem_sliceList (f : Nat → Int) : ∀ (lo len : Nat) (x : Int),
    x ∈ sliceList f lo len ↔ ∃ m, m < len ∧ x = f (lo + m) := by
  intro lo len
  induction len generalizing lo with
  | zero => intro x; simp [sliceList]
  | succ n ih =>
    intro x
    simp only [sliceList, List.mem_cons, ih (lo + 1)]
    constructor
    · rintro (h0 | ⟨m, hm, he⟩)
      · exact ⟨0, by omega, by simpa using h0⟩
      · refine ⟨m + 1, by omega, ?_⟩
        have e : lo + (m + 1) = lo + 1 + m := by omega
        rw [e]; exact he
    · rintro ⟨m, hm, he⟩
      cases m with
      | zero => left; simpa using he
      | succ m =>
        right
        refine ⟨m, by omega, ?_⟩
        have e : lo + 1 + m = lo + (m + 1) := by omega
        rw [e]; exact he

theorem sliceList_length (f : Nat → Int) : ∀ (lo len : Nat),
    (sliceList f lo len).length = len := by
  intro lo len
  induction len generalizing lo with
  | zero => rfl
  | succ n ih => simp [sliceList, ih (lo + 1)]

theorem sliceList_mono (f : Nat → Int) (lo len : Nat)
    (h : ∀ m, m + 1 < len → f (lo + m) ≤ f (lo + m + 1)) :
    ∀ q, q < len → ∀ p, p ≤ q → f (lo + p) ≤ f (lo + q) := by
  intro q
  induction q with
  | zero =>
    intro _ p hp
    have : p = 0 := by omega
    subst this
    exact le_refl _
  | succ q ih =>
    intro hq p hp
    rcases Nat.lt_or_ge p (q + 1) with hlt | hge
    · have h1 : f (lo + p) ≤ f (lo + q) := ih (by omega) p (by omega)
      have h2 : f (lo + q) ≤ f (lo + q + 1) := h q (by omega)
      have e : lo + (q + 1) = lo + q + 1 := by omega
      rw [e]
      exact le_trans h1 h2
    · have : p = q + 1 := by omega
      subst this
      exact le_refl _

theorem sorted_sliceList_of_adj (f : Nat → Int) : ∀ (lo len : Nat),
    (∀ m, m + 1 < len → f (lo + m) ≤ f (lo + m + 1)) →
    List.Sorted (· ≤ ·) (sliceList f lo len) := by
  intro lo len
  induction len generalizing lo with
  | zero => intro _; simp [sliceList]
  | succ n ih =>
    intro h
    simp only [sliceList, List.sorted_cons]
    constructor
    · intro b hb
      rw [mem_sliceList] at hb
      obtain ⟨m, hm, he⟩ := hb
      subst he
      have := sliceList_mono f lo (n + 1) h (m + 1) (by omega) 0 (by omega)
      have e : lo + (m + 1) = lo + 1 + m := by omega
      rw [e] at this
      simpa using this
    · refine ih (lo + 1) ?_
      intro m hm
      have e1 : lo + 1 + m = lo + (m + 1) := by omega
      rw [e1]
      exact h (m + 1) (by omega)

theorem adj_of_sorted_sliceList (f : Nat → Int) : ∀ (lo len : Nat),
    List.Sorted (· ≤ ·) (sliceList f lo len) →
    ∀ m, m + 1 < len → f (lo + m) ≤ f (lo + m + 1) := by
  intro lo len
  induction len generalizing lo with
  | zero => intro _ m hm; omega
  | succ n ih =>
    intro h m hm
    simp only [sliceList, List.sorted_cons] at h
    cases m with
    | zero =>
      have hmem : f (lo + 1) ∈ sliceList f (lo + 1) n := by
        rw [mem_sliceList]
        exact ⟨0, by omega, by simp⟩
      simpa using h.1 _ hmem
    | succ m =>
      have := ih (lo + 1) h.2 m (by omega)
      have e1 : lo + (m + 1) = lo + 1 + m := by omega
      rw [e1]
      exact this

/-! ## Lemmas about `mergeList` -/

theorem mergeList_nil_right : ∀ (l : List Int), mergeList l [] = l := by
  intro l
  cases l <;> simp [mergeList]

theorem mergeList_perm : ∀ (l r : List Int), List.Perm (mergeList l r) (l ++ r) := by
  intro l r
  induction l, r using mergeList.induct with
  | case1 r => simp [mergeList]
  | case2 l hne => rw [mergeList_nil_right]; simp
  | case3 a l b r hle ih =>
    rw [mergeList, if_pos hle]
    exact (ih.cons a)
  | case4 a l b r hle ih =>
    rw [mergeList, if_neg hle]
    refine (ih.cons b).trans ?_
    exact List.perm_middle.symm

theorem mem_mergeList (x : Int) (l r : List Int) :
    x ∈ mergeList l r ↔ x ∈ l ∨ x ∈ r := by
  rw [(mergeList_perm l r).mem_iff, List.mem_append]

theorem mergeList_sorted : ∀ (l r : List Int),
    List.Sorted (· ≤ ·) l → List.Sorted (· ≤ ·) r →
    List.Sorted (· ≤ ·) (mergeList l r) := by
  intro l r
  induction l, r using mergeList.induct with
  | case1 r => intro _ hr; simpa [mergeList] using hr
  | case2 l hne => intro hl _; rw [mergeList_nil_right]; exact hl
  | case3 a l b r hle ih =>
    intro hl hr
    rw [mergeList, if_pos hle]
    rw [List.sorted_cons] at hl ⊢
    refine ⟨?_, ih hl.2 hr⟩
    intro x hx
    rw [mem_mergeList] at hx
    rcases hx with hx | hx
    · exact hl.1 x hx
    · rcases List.mem_cons.mp hx with he | hx
      · subst he; exact hle
      · rw [List.sorted_cons] at hr
        exact le_trans hle (hr.1 x hx)
  | case4 a l b r hle ih =>
    intro hl hr
    rw [mergeList, if_neg hle]
    rw [List.sorted_cons] at hr ⊢
    have hba : b ≤ a := le_of_lt (lt_of_not_le hle)
    refine ⟨?_, ih hl hr.2⟩
    intro x hx
    rw [mem_mergeList] at hx
    rcases hx with hx | hx
    · rcases List.mem_cons.mp hx with he | hx
      · subst he; exact hba
      · rw [List.sorted_cons] at hl
        exact le_trans hba (hl.1 x hx)
    · exact hr.1 x hx

theorem mergeList_all_le : ∀ (l r : List Int),
    (∀ x ∈ l, ∀ y ∈ r, x ≤ y) → mergeList l r = l ++ r := by
  intro l r
  induction l, r using mergeList.induct with
  | case1 r => intro _; simp [mergeList]
  | case2 l hne => intro _; rw [mergeList_nil_right]; simp
  | case3 a l b r hle ih =>
    intro h
    rw [mergeList, if_pos hle, List.cons_append]
    rw [ih]
    intro x hx y hy
    exact h x (List.mem_cons_of_mem a hx) y hy
  | case4 a l b r hle ih =>
    intro h
    exact absurd (h a (List.mem_cons_self a l) b (List.mem_cons_self b r)) hle

/-! ## Specification of the `merge` loops -/

theorem copyLoop_spec (A : Nat → Int) (iend : Nat) : ∀ (i k : Nat) (B : Nat → Int),
    (copyLoop A iend i k B).2 = k + (iend + 1 - i) ∧
    (∀ n, n < k ∨ k + (iend + 1 - i) ≤ n → (copyLoop A iend i k B).1 n = B n) ∧
    sliceList (copyLoop A iend i k B).1 k (iend + 1 - i) =
      sliceList A i (iend + 1 - i) := by
  intro i k B
  induction i, k, B using copyLoop.induct A iend with
  | case1 i k B h ih =>
    rw [copyLoop, dif_pos h]
    obtain ⟨ihsnd, ihframe, ihslice⟩ := ih
    refine ⟨by rw [ihsnd]; omega, ?_, ?_⟩
    · intro n hn
      have h1 : (copyLoop A iend (i + 1) (k + 1) (upd B k (A i))).1 n =
          upd B k (A i) n := by
        refine ihframe n ?_
        omega
      rw [h1]
      have hnk : n ≠ k := by omega
      simp [upd, hnk]
    · have e : iend + 1 - i = (iend + 1 - (i + 1)) + 1 := by omega
      rw [e]
      simp only [sliceList, List.cons.injEq]
      constructor
      · have h1 : (copyLoop A iend (i + 1) (k + 1) (upd B k (A i))).1 k =
            upd B k (A i) k := ihframe k (by omega)
        rw [h1]
        simp [upd]
      · exact ihslice
  | case2 i k B h =>
    rw [copyLoop, dif_neg h]
    have e : iend + 1 - i = 0 := by omega
    rw [e]
    exact ⟨rfl, fun n _ => rfl, rfl⟩

theorem mergeLoop_spec (A : Nat → Int) (leftend rightend : Nat) :
    ∀ (i j k : Nat) (B : Nat → Int),
    (∀ n, n < k ∨ k + ((leftend + 1 - i) + (rightend + 1 - j)) ≤ n →
        mergeLoop A leftend rightend i j k B n = B n) ∧
    sliceList (mergeLoop A leftend rightend i j k B) k
        ((leftend + 1 - i) + (rightend + 1 - j)) =
      mergeList (sliceList A i (leftend + 1 - i))
        (sliceList A j (rightend + 1 - j)) := by
  intro i j k B
  induction i, j, k, B using mergeLoop.induct A leftend rightend with
  | case1 i j k B h hle ih =>
    rw [mergeLoop, dif_pos h, if_pos hle]
    obtain ⟨ihframe, ihslice⟩ := ih
    have el : leftend + 1 - i = (leftend + 1 - (i + 1)) + 1 := by omega
    have er : rightend + 1 - j = (rightend - j) + 1 := by omega
    refine ⟨?_, ?_⟩
    · intro n hn
      have h1 : mergeLoop A leftend rightend (i + 1) j (k + 1) (upd B k (A i)) n =
          upd B k (A i) n := by
        refine ihframe n ?_
        omega
      rw [h1]
      have hnk : n ≠ k := by omega
      simp [upd, hnk]
    · have hhead : mergeLoop A leftend rightend (i + 1) j (k + 1) (upd B k (A i)) k =
          A i := by
        rw [ihframe k (by omega)]
        simp [upd]
      have etot : (leftend + 1 - i) + (rightend + 1 - j) =
          ((leftend + 1 - (i + 1)) + (rightend + 1 - j)) + 1 := by omega
      have eA : sliceList A i (leftend + 1 - i) =
          A i :: sliceList A (i + 1) (leftend + 1 - (i + 1)) := by
        rw [el]; simp only [sliceList]
      have eB : sliceList A j (rightend + 1 - j) =
          A j :: sliceList A (j + 1) (rightend - j) := by
        rw [er]; simp only [sliceList]
      rw [etot, eA, eB, mergeList, if_pos hle, ← eB]
      simp only [sliceList, List.cons.injEq]
      exact ⟨hhead, ihslice⟩
  | case2 i j k B h hle ih =>
    rw [mergeLoop, dif_pos h, if_neg hle]
    obtain ⟨ihframe, ihslice⟩ := ih
    have el : leftend + 1 - i = (leftend - i) + 1 := by omega
    have er : rightend + 1 - j = (rightend + 1 - (j + 1)) + 1 := by omega
    refine ⟨?_, ?_⟩
    · intro n hn
      have h1 : mergeLoop A leftend rightend i (j + 1) (k + 1) (upd B k (A j)) n =
          upd B k (A j) n := by
        refine ihframe n ?_
        omega
      rw [h1]
      have hnk : n ≠ k := by omega
      simp [upd, hnk]
    · have hhead : mergeLoop A leftend rightend i (j + 1) (k + 1) (upd B k (A j)) k =
          A j := by
        rw [ihframe k (by omega)]
        simp [upd]
      have etot : (leftend + 1 - i) + (rightend + 1 - j) =
          ((leftend + 1 - i) + (rightend + 1 - (j + 1))) + 1 := by omega
      have eA : sliceList A i (leftend + 1 - i) =
          A i :: sliceList A (i + 1) (leftend - i) := by
        rw [el]; simp only [sliceList]
      have eB : sliceList A j (rightend + 1 - j) =
          A j :: sliceList A (j + 1) (rightend + 1 - (j + 1)) := by
        rw [er]; simp only [sliceList]
      rw [etot, eA, eB, mergeList, if_neg hle, ← eA]
      simp only [sliceList, List.cons.injEq]
      exact ⟨hhead, ihslice⟩
  | case3 i j k B h =>
    rw [mergeLoop, dif_neg h]
    obtain ⟨c1snd, c1frame, c1slice⟩ := copyLoop_spec A leftend i k B
    set B1 := (copyLoop A leftend i k B).1 with hB1
    set k1 := (copyLoop A leftend i k B).2 with hk1
    obtain ⟨c2snd, c2frame, c2slice⟩ := copyLoop_spec A rightend j k1 B1
    have hk1v : k1 = k + (leftend + 1 - i) := c1snd
    refine ⟨?_, ?_⟩
    · intro n hn
      have h2 : (copyLoop A rightend j k1 B1).1 n = B1 n := by
        refine c2frame n ?_
        omega
      rw [h2]
      refine c1frame n ?_
      omega
    · rw [sliceList_split]
      have e1 : sliceList (copyLoop A rightend j k1 B1).1 k (leftend + 1 - i) =
          sliceList A i (leftend + 1 - i) := by
        rw [← c1slice]
        refine sliceList_congr _ _ k (leftend + 1 - i) ?_
        intro m hm
        refine c2frame (k + m) ?_
        omega
      have e2 : sliceList (copyLoop A rightend j k1 B1).1 (k + (leftend + 1 - i))
            (rightend + 1 - j) = sliceList A j (rightend + 1 - j) := by
        rw [← hk1v]
        exact c2slice
      rw [e1, e2]
      rcases Decidable.not_and_iff_or_not.mp h with hi | hj
      · have e0 : leftend + 1 - i = 0 := by omega
        rw [e0]
        simp only [sliceList, List.nil_append]
        rw [mergeList]
      · have e0 : rightend + 1 - j = 0 := by omega
        rw [e0]
        simp only [sliceList]
        rw [mergeList_nil_right, List.append_nil]

theorem merge_spec (s : State) (leftstart leftend rightstart rightend : Nat)
    (hadj : rightstart = leftend + 1) (hl : leftstart ≤ leftend)
    (hr : rightstart ≤ rightend) :
    (∀ n, n < leftstart ∨ rightend < n →
        (merge s leftstart leftend rightstart rightend).A n = s.A n ∧
        (merge s leftstart leftend rightstart rightend).B n = s.B n) ∧
    sliceList (merge s leftstart leftend rightstart rightend).A leftstart
        (rightend + 1 - leftstart) =
      mergeList (sliceList s.A leftstart (leftend + 1 - leftstart))
        (sliceList s.A rightstart (rightend + 1 - rightstart)) := by
  obtain ⟨lframe, lslice⟩ :=
    mergeLoop_spec s.A leftend rightend leftstart rightstart leftstart s.B
  have etot : (leftend + 1 - leftstart) + (rightend + 1 - rightstart) =
      rightend + 1 - leftstart := by omega
  constructor
  · intro n hn
    constructor
    · simp only [merge]
      have : ¬(leftstart ≤ n ∧ n ≤ rightend) := by omega
      rw [if_neg this]
    · simp only [merge]
      refine lframe n ?_
      omega
  · have hA : sliceList (merge s leftstart leftend rightstart rightend).A leftstart
        (rightend + 1 - leftstart) =
        sliceList (mergeLoop s.A leftend rightend leftstart rightstart leftstart s.B)
          leftstart (rightend + 1 - leftstart) := by
      refine sliceList_congr _ _ leftstart (rightend + 1 - leftstart) ?_
      intro m hm
      simp only [merge]
      have : leftstart ≤ leftstart + m ∧ leftstart + m ≤ rightend := by omega
      rw [if_pos this]
    rw [hA, ← etot]
    exact lslice

/-! ## Unfolding lemmas for the recursive procedures -/

theorem my_mergesort_base (s : State) (left right : Nat) (h : left ≥ right) :
    my_mergesort s left right = s := by
  rw [my_mergesort]
  simp only [dif_pos h]

theorem my_mergesort_rec (s : State) (left right : Nat) (h : left < right) :
    my_mergesort s left right =
      merge (my_mergesort (my_mergesort s left (midSplit left right))
          (midSplit left right + 1) right)
        left (midSplit left right) (midSplit left right + 1) right := by
  rw [my_mergesort]
  have hn : ¬ left ≥ right := by omega
  simp only [dif_neg hn]

theorem parallel_mergesort_base (cutoff : Nat) (s : State) (a : Argument)
    (h : a.left ≥ a.right) : parallel_mergesort cutoff s a = s := by
  rw [parallel_mergesort]
  simp only [dif_pos h]

theorem parallel_mergesort_serial (cutoff : Nat) (s : State) (a : Argument)
    (h1 : a.left < a.right) (h2 : a.level ≥ cutoff) :
    parallel_mergesort cutoff s a = my_mergesort s a.left a.right := by
  rw [parallel_mergesort]
  have hn : ¬ a.left ≥ a.right := by omega
  simp only [dif_neg hn, if_pos h2]

theorem parallel_mergesort_fanout (cutoff : Nat) (s : State) (a : Argument)
    (h1 : a.left < a.right) (h2 : a.level < cutoff) :
    parallel_mergesort cutoff s a =
      merge (parallel_mergesort cutoff
          (parallel_mergesort cutoff s
            (buildArgs a.left (midSplit a.left a.right) (a.level + 1)))
          (buildArgs (midSplit a.left a.right + 1) a.right (a.level + 1)))
        a.left (midSplit a.left a.right) (midSplit a.left a.right + 1) a.right := by
  rw [parallel_mergesort]
  have hn : ¬ a.left ≥ a.right := by omega
  have hn2 : ¬ a.level ≥ cutoff := by omega
  simp only [dif_neg hn, if_neg hn2]

theorem midSplit_bounds (left right : Nat) (h : left < right) :
    left ≤ midSplit left right ∧ midSplit left right < right := by
  simp only [midSplit]
  omega

/-! ## Correctness of `my_mergesort` -/

theorem my_mergesort_spec : ∀ (s : State) (left right : Nat),
    (∀ n, n < left ∨ right < n → (my_mergesort s left right).A n = s.A n) ∧
    List.Perm (sliceList (my_mergesort s left right).A left (right + 1 - left))
      (sliceList s.A left (right + 1 - left)) ∧
    List.Sorted (· ≤ ·)
      (sliceList (my_mergesort s left right).A left (right + 1 - left)) := by
  intro s left right
  induction s, left, right using my_mergesort.induct with
  | case1 s left right h =>
    rw [my_mergesort_base s left right h]
    refine ⟨fun n _ => rfl, List.Perm.refl _, ?_⟩
    have : right + 1 - left = 0 ∨ right + 1 - left = 1 := by omega
    rcases this with e | e <;> rw [e] <;> simp [sliceList]
  | case2 s left right h mid s1 iha ihb ihc =>
    clear ihb
    have hlr : left < right := by omega
    have hmid : mid = midSplit left right := rfl
    have hs1v : s1 = my_mergesort s left mid := rfl
    have hbounds := midSplit_bounds left right hlr
    rw [← hmid] at hbounds
    obtain ⟨hlm, hmr⟩ := hbounds
    rw [my_mergesort_rec s left right hlr, ← hmid, ← hs1v]
    set s2 := my_mergesort s1 (mid + 1) right with hs2
    obtain ⟨f1, p1, so1⟩ := iha
    obtain ⟨f2, p2, so2⟩ := ihc
    obtain ⟨mframe, mslice⟩ := merge_spec s2 left mid (mid + 1) right rfl hlm
      (by omega)
    have eX : sliceList s2.A left (mid + 1 - left) =
        sliceList s1.A left (mid + 1 - left) := by
      refine sliceList_congr _ _ left (mid + 1 - left) ?_
      intro m hm
      refine f2 (left + m) ?_
      omega
    have eY : sliceList s1.A (mid + 1) (right + 1 - (mid + 1)) =
        sliceList s.A (mid + 1) (right + 1 - (mid + 1)) := by
      refine sliceList_congr _ _ (mid + 1) (right + 1 - (mid + 1)) ?_
      intro m hm
      refine f1 (mid + 1 + m) ?_
      omega
    refine ⟨?_, ?_, ?_⟩
    · intro n hn
      have e1 : (merge s2 left mid (mid + 1) right).A n = s2.A n :=
        (mframe n (by omega)).1
      have e2 : s2.A n = s1.A n := f2 n (by omega)
      have e3 : s1.A n = s.A n := f1 n (by omega)
      rw [e1, e2, e3]
    · rw [mslice]
      have step1 : List.Perm
          (mergeList (sliceList s2.A left (mid + 1 - left))
            (sliceList s2.A (mid + 1) (right + 1 - (mid + 1))))
          ((sliceList s2.A left (mid + 1 - left)) ++
            (sliceList s2.A (mid + 1) (right + 1 - (mid + 1)))) :=
        mergeList_perm _ _
      have step2 : List.Perm
          ((sliceList s2.A left (mid + 1 - left)) ++
            (sliceList s2.A (mid + 1) (right + 1 - (mid + 1))))
          ((sliceList s.A left (mid + 1 - left)) ++
            (sliceList s.A (mid + 1) (right + 1 - (mid + 1)))) := by
        rw [eX]
        exact List.Perm.append p1 (p2.trans (by rw [eY]))
      have esplit : sliceList s.A left (right + 1 - left) =
          (sliceList s.A left (mid + 1 - left)) ++
            (sliceList s.A (mid + 1) (right + 1 - (mid + 1))) := by
        have e : right + 1 - left = (mid + 1 - left) + (right + 1 - (mid + 1)) := by
          omega
        rw [e, sliceList_split]
        have e2 : left + (mid + 1 - left) = mid + 1 := by omega
        rw [e2]
      rw [esplit]
      exact step1.trans step2
    · rw [mslice]
      refine mergeList_sorted _ _ ?_ so2
      rw [eX]
      exact so1

/-! ## The parallel engine computes exactly the serial sort -/

theorem parallel_eq_serial (cutoff : Nat) : ∀ (s : State) (a : Argument),
    parallel_mergesort cutoff s a = my_mergesort s a.left a.right := by
  intro s a
  induction s, a using parallel_mergesort.induct cutoff with
  | case1 s a h =>
    rw [parallel_mergesort_base cutoff s a h, my_mergesort_base _ _ _ h]
  | case2 s a h hc =>
    have hlr : a.left < a.right := by omega
    rw [parallel_mergesort_serial cutoff s a hlr hc]
  | case3 s a h hc mid s1 iha ihb ihc =>
    clear ihb
    have hlr : a.left < a.right := by omega
    have hmid : mid = midSplit a.left a.right := rfl
    have hs1v : s1 = parallel_mergesort cutoff s (buildArgs a.left mid (a.level + 1)) :=
      rfl
    rw [parallel_mergesort_fanout cutoff s a hlr (by omega),
      my_mergesort_rec s a.left a.right hlr, ← hmid, ← hs1v]
    have e1 : s1 = my_mergesort s a.left mid := by
      rw [hs1v, iha]
      rfl
    have e2 : parallel_mergesort cutoff s1 (buildArgs (mid + 1) a.right (a.level + 1)) =
        my_mergesort s1 (mid + 1) a.right := ihc
    rw [e2, e1]

/-! ## The final dataset does not depend on the initial scratch buffer -/

theorem merge_A_congr (s t : State) (hA : s.A = t.A) (left mid right : Nat)
    (hlm : left ≤ mid) (hmr : mid + 1 ≤ right) :
    (merge s left mid (mid + 1) right).A = (merge t left mid (mid + 1) right).A := by
  obtain ⟨fr1, sl1⟩ := merge_spec s left mid (mid + 1) right rfl hlm hmr
  obtain ⟨fr2, sl2⟩ := merge_spec t left mid (mid + 1) right rfl hlm hmr
  funext n
  by_cases hin : left ≤ n ∧ n ≤ right
  · have hsl : sliceList (merge s left mid (mid + 1) right).A left (right + 1 - left) =
        sliceList (merge t left mid (mid + 1) right).A left (right + 1 - left) := by
      rw [sl1, sl2, hA]
    have hp := sliceList_pointwise _ _ left (right + 1 - left) hsl (n - left) (by omega)
    have e : left + (n - left) = n := by omega
    rw [e] at hp
    exact hp
  · have h1 := (fr1 n (by omega)).1
    have h2 := (fr2 n (by omega)).1
    rw [h1, h2, hA]

theorem my_mergesort_A_congr : ∀ (s : State) (left right : Nat) (t : State),
    s.A = t.A → (my_mergesort s left right).A = (my_mergesort t left right).A := by
  intro s left right
  induction s, left, right using my_mergesort.induct with
  | case1 s left right h =>
    intro t hA
    rw [my_mergesort_base s left right h, my_mergesort_base t left right h]
    exact hA
  | case2 s left right h mid s1 iha ihb ihc =>
    clear ihb
    intro t hA
    have hlr : left < right := by omega
    have hmid : mid = midSplit left right := rfl
    have hs1v : s1 = my_mergesort s left mid := rfl
    have hb := midSplit_bounds left right hlr
    rw [← hmid] at hb
    rw [my_mergesort_rec s left right hlr, my_mergesort_rec t left right hlr,
      ← hmid, ← hs1v]
    refine merge_A_congr _ _ ?_ left mid right hb.1 (by omega)
    refine ihc (my_mergesort t left mid) ?_
    rw [hs1v]
    exact iha t hA

/-! ## Sorting an already-sorted range is the identity on the dataset -/

theorem merge_A_of_sorted (s : State) (left mid right : Nat)
    (hlm : left ≤ mid) (hmr : mid + 1 ≤ right)
    (hs : List.Sorted (· ≤ ·) (sliceList s.A left (right + 1 - left))) :
    ∀ n, (merge s left mid (mid + 1) right).A n = s.A n := by
  obtain ⟨fr, sl⟩ := merge_spec s left mid (mid + 1) right rfl hlm hmr
  have esplit : sliceList s.A left (right + 1 - left) =
      sliceList s.A left (mid + 1 - left) ++
        sliceList s.A (mid + 1) (right + 1 - (mid + 1)) := by
    have e : right + 1 - left = (mid + 1 - left) + (right + 1 - (mid + 1)) := by omega
    rw [e, sliceList_split]
    have e2 : left + (mid + 1 - left) = mid + 1 := by omega
    rw [e2]
  have hp : List.Pairwise (· ≤ ·)
      (sliceList s.A left (mid + 1 - left) ++
        sliceList s.A (mid + 1) (right + 1 - (mid + 1))) := by
    rw [← esplit]
    exact hs
  rw [List.pairwise_append] at hp
  have hml := mergeList_all_le _ _ hp.2.2
  have hfix : sliceList (merge s left mid (mid + 1) right).A left (right + 1 - left) =
      sliceList s.A left (right + 1 - left) := by
    rw [sl, hml, esplit]
  intro n
  by_cases hin : left ≤ n ∧ n ≤ right
  · have hpw := sliceList_pointwise _ _ left (right + 1 - left) hfix (n - left)
      (by omega)
    have e : left + (n - left) = n := by omega
    rw [e] at hpw
    exact hpw
  · exact (fr n (by omega)).1

theorem my_mergesort_idem : ∀ (s : State) (left right : Nat),
    List.Sorted (· ≤ ·) (sliceList s.A left (right + 1 - left)) →
    ∀ n, (my_mergesort s left right).A n = s.A n := by
  intro s left right
  induction s, left, right using my_mergesort.induct with
  | case1 s left right h =>
    intro _ n
    rw [my_mergesort_base s left right h]
  | case2 s left right h mid s1 iha ihb ihc =>
    clear ihb
    intro hs
    have hlr : left < right := by omega
    have hmid : mid = midSplit left right := rfl
    have hs1v : s1 = my_mergesort s left mid := rfl
    have hb := midSplit_bounds left right hlr
    rw [← hmid] at hb
    have esplit : sliceList s.A left (right + 1 - left) =
        sliceList s.A left (mid + 1 - left) ++
          sliceList s.A (mid + 1) (right + 1 - (mid + 1)) := by
      have e : right + 1 - left = (mid + 1 - left) + (right + 1 - (mid + 1)) := by
        omega
      rw [e, sliceList_split]
      have e2 : left + (mid + 1 - left) = mid + 1 := by omega
      rw [e2]
    have hp : List.Pairwise (· ≤ ·)
        (sliceList s.A left (mid + 1 - left) ++
          sliceList s.A (mid + 1) (right + 1 - (mid + 1))) := by
      rw [← esplit]
      exact hs
    rw [List.pairwise_append] at hp
    have hfe1 : s1.A = s.A := by
      funext n
      rw [hs1v]
      exact iha hp.1 n
    have h2 : ∀ n, (my_mergesort s1 (mid + 1) right).A n = s1.A n := by
      refine ihc ?_
      rw [hfe1]
      exact hp.2.1
    have hfe2 : (my_mergesort s1 (mid + 1) right).A = s.A := by
      funext n
      rw [h2 n, hfe1]
    intro n
    rw [my_mergesort_rec s left right hlr, ← hmid, ← hs1v]
    have hsort2 : List.Sorted (· ≤ ·)
        (sliceList (my_mergesort s1 (mid + 1) right).A left (right + 1 - left)) := by
      rw [hfe2]
      exact hs
    have := merge_A_of_sorted (my_mergesort s1 (mid + 1) right) left mid right
      hb.1 (by omega) hsort2 n
    rw [this, hfe2]

theorem parallel_eq_serial_args (cutoff left right level : Nat) (s : State) :
    parallel_mergesort cutoff s (buildArgs left right level) =
      my_mergesort s left right :=
  parallel_eq_serial cutoff s (buildArgs left right level)

/-! ## The claims -/

/-- Claim C1: for every dataset `A` of length `N ≥ 1`, every cutoff ≥ 0, and
the root descriptor `{left: 0, right: N-1, level: 0}`, after
`parallel_mergesort` returns, every adjacent pair of indices `i, i+1` in
`[0, N-1]` satisfies `A[i] ≤ A[i+1]`. -/
theorem C1_root_sortedness (N cutoff : Nat) (s : State) (hN : 1 ≤ N) :
    ∀ i, i + 1 ≤ N - 1 →
      (parallel_mergesort cutoff s (buildArgs 0 (N - 1) 0)).A i ≤
        (parallel_mergesort cutoff s (buildArgs 0 (N - 1) 0)).A (i + 1) := by
  intro i hi
  rw [parallel_eq_serial_args]
  have hso := (my_mergesort_spec s 0 (N - 1)).2.2
  have hadj := adj_of_sorted_sliceList _ 0 ((N - 1) + 1 - 0) hso i (by omega)
  simpa using hadj

theorem C1_root_sortedness_witness :
    1 ≤ 3 ∧
    ∀ i, i + 1 ≤ 3 - 1 →
      (parallel_mergesort 1 (State.mk (fun n => 2 - (n : Int)) (fun _ => 0))
          (buildArgs 0 (3 - 1) 0)).A i ≤
        (parallel_mergesort 1 (State.mk (fun n => 2 - (n : Int)) (fun _ => 0))
          (buildArgs 0 (3 - 1) 0)).A (i + 1) :=
  ⟨by decide,
    C1_root_sortedness 3 1 (State.mk (fun n => 2 - (n : Int)) (fun _ => 0))
      (by decide)⟩

/-- Claim C2: for every dataset `A` (length `N ≥ 1`, root descriptor) and
every cutoff ≥ 0, the contents of `A` after `parallel_mergesort` returns
are a permutation of the multiset of its contents before the call. -/
theorem C2_permutation (N cutoff : Nat) (s : State) (hN : 1 ≤ N) :
    List.Perm
      (sliceList (parallel_mergesort cutoff s (buildArgs 0 (N - 1) 0)).A 0 N)
      (sliceList s.A 0 N) := by
  rw [parallel_eq_serial_args]
  have hp := (my_mergesort_spec s 0 (N - 1)).2.1
  have e : (N - 1) + 1 - 0 = N := by omega
  rw [e] at hp
  exact hp

theorem C2_permutation_witness :
    1 ≤ 3 ∧
    List.Perm
      (sliceList (parallel_mergesort 2 (State.mk (fun n => 2 - (n : Int)) (fun _ => 0))
          (buildArgs 0 (3 - 1) 0)).A 0 3)
      (sliceList (State.mk (fun n => 2 - (n : Int)) (fun _ => 0)).A 0 3) :=
  ⟨by decide,
    C2_permutation 3 2 (State.mk (fun n => 2 - (n : Int)) (fun _ => 0)) (by decide)⟩

/-- Claim C3: for every call `merge(leftstart, leftend, rightstart, rightend)`
with `rightstart = leftend + 1` whose two subranges of `A` are each sorted
ascending, after the call `A[leftstart..rightend]` is sorted ascending, and
the merge is stable: the merged window equals `mergeList` of the two input
subranges, and `mergeList` takes the left element first on ties
(`A[i] <= A[j]` selects the left side). -/
theorem C3_merge_sorted_stable (s : State)
    (leftstart leftend rightstart rightend : Nat)
    (hadj : rightstart = leftend + 1) (hl : leftstart ≤ leftend)
    (hr : rightstart ≤ rightend)
    (hsl : List.Sorted (· ≤ ·) (sliceList s.A leftstart (leftend + 1 - leftstart)))
    (hsr : List.Sorted (· ≤ ·) (sliceList s.A rightstart (rightend + 1 - rightstart))) :
    List.Sorted (· ≤ ·)
      (sliceList (merge s leftstart leftend rightstart rightend).A leftstart
        (rightend + 1 - leftstart)) ∧
    sliceList (merge s leftstart leftend rightstart rightend).A leftstart
        (rightend + 1 - leftstart) =
      mergeList (sliceList s.A leftstart (leftend + 1 - leftstart))
        (sliceList s.A rightstart (rightend + 1 - rightstart)) := by
  obtain ⟨fr, sl⟩ := merge_spec s leftstart leftend rightstart rightend hadj hl hr
  constructor
  · rw [sl]
    exact mergeList_sorted _ _ hsl hsr
  · exact sl

theorem C3_merge_sorted_stable_witness :
    (1 : Nat) = 0 + 1 ∧ (0 : Nat) ≤ 0 ∧ (1 : Nat) ≤ 1 ∧
    List.Sorted (· ≤ ·)
      (sliceList (State.mk (fun n => if n = 0 then 5 else 3) (fun _ => 0)).A 0
        (0 + 1 - 0)) ∧
    List.Sorted (· ≤ ·)
      (sliceList (State.mk (fun n => if n = 0 then 5 else 3) (fun _ => 0)).A 1
        (1 + 1 - 1)) ∧
    (List.Sorted (· ≤ ·)
      (sliceList (merge (State.mk (fun n => if n = 0 then 5 else 3) (fun _ => 0))
          0 0 1 1).A 0 (1 + 1 - 0)) ∧
    sliceList (merge (State.mk (fun n => if n = 0 then 5 else 3) (fun _ => 0))
        0 0 1 1).A 0 (1 + 1 - 0) =
      mergeList
        (sliceList (State.mk (fun n => if n = 0 then 5 else 3) (fun _ => 0)).A 0
          (0 + 1 - 0))
        (sliceList (State.mk (fun n => if n = 0 then 5 else 3) (fun _ => 0)).A 1
          (1 + 1 - 1))) :=
  ⟨by decide, by decide, by decide,
    by simp [sliceList],
    by simp [sliceList],
    C3_merge_sorted_stable (State.mk (fun n => if n = 0 then 5 else 3) (fun _ => 0))
      0 0 1 1 (by decide) (by decide) (by decide)
      (by simp [sliceList]) (by simp [sliceList])⟩

/-- Claim C4: `parallel_mergesort` at any cutoff computes exactly the same
state as the serial `my_mergesort`, so any two cutoff values (in particular
0, 1, 2, 3, 4) produce element-for-element identical final dataset contents. -/
theorem C4_cutoff_invariance :
    ∀ (c1 c2 : Nat) (s : State) (left right level : Nat),
      parallel_mergesort c1 s (buildArgs left right level) =
        my_mergesort s left right ∧
      parallel_mergesort c1 s (buildArgs left right level) =
        parallel_mergesort c2 s (buildArgs left right level) := by
  intro c1 c2 s left right level
  constructor
  · exact parallel_eq_serial_args c1 left right level s
  · rw [parallel_eq_serial_args, parallel_eq_serial_args]

/-- Claim C5: for `right > left` the split point
`mid = left + (right - left) / 2` gives two non-empty halves
`[left, mid]` and `[mid+1, right]`, each strictly smaller than
`[left, right]`; together with the base case `left ≥ right` being a no-op,
these are exactly the facts by which the recursion of `my_mergesort`
(defined by well-founded recursion on `right - left`) terminates. -/
theorem C5_split_termination (left right : Nat) (h : left < right) :
    left ≤ midSplit left right ∧
    midSplit left right < right ∧
    midSplit left right + 1 ≤ right ∧
    midSplit left right - left + 1 < right - left + 1 ∧
    right - (midSplit left right + 1) + 1 < right - left + 1 ∧
    ∀ (s : State) (l r : Nat), r ≤ l → my_mergesort s l r = s := by
  have hm := midSplit_bounds left right h
  refine ⟨hm.1, hm.2, by omega, by omega, by omega, ?_⟩
  intro s l r hlr
  exact my_mergesort_base s l r hlr

theorem C5_split_termination_witness :
    0 < 5 ∧
    (0 ≤ midSplit 0 5 ∧
     midSplit 0 5 < 5 ∧
     midSplit 0 5 + 1 ≤ 5 ∧
     midSplit 0 5 - 0 + 1 < 5 - 0 + 1 ∧
     5 - (midSplit 0 5 + 1) + 1 < 5 - 0 + 1 ∧
     ∀ (s : State) (l r : Nat), r ≤ l → my_mergesort s l r = s) :=
  ⟨by decide, C5_split_termination 0 5 (by decide)⟩

/-- Claim C6: for every call of `merge` satisfying the adjacency
precondition (`rightstart = leftend + 1`, with two well-formed adjacent
subranges), every index outside `[leftstart, rightend]` holds the same
value in the dataset `A` and in the scratch buffer `B` after the call as
before it. -/
theorem C6_merge_frame (s : State) (leftstart leftend rightstart rightend : Nat)
    (hadj : rightstart = leftend + 1) (hl : leftstart ≤ leftend)
    (hr : rightstart ≤ rightend) :
    ∀ n, n < leftstart ∨ rightend < n →
      (merge s leftstart leftend rightstart rightend).A n = s.A n ∧
      (merge s leftstart leftend rightstart rightend).B n = s.B n :=
  (merge_spec s leftstart leftend rightstart rightend hadj hl hr).1

theorem C6_merge_frame_witness :
    (1 : Nat) = 0 + 1 ∧ (0 : Nat) ≤ 0 ∧ (1 : Nat) ≤ 1 ∧
    ∀ n, n < 0 ∨ 1 < n →
      (merge (State.mk (fun n => (n : Int)) (fun _ => 9)) 0 0 1 1).A n =
        (State.mk (fun n => (n : Int)) (fun _ => 9)).A n ∧
      (merge (State.mk (fun n => (n : Int)) (fun _ => 9)) 0 0 1 1).B n =
        (State.mk (fun n => (n : Int)) (fun _ => 9)).B n :=
  ⟨by decide, by decide, by decide,
    C6_merge_frame (State.mk (fun n => (n : Int)) (fun _ => 9)) 0 0 1 1
      (by decide) (by decide) (by decide)⟩

/-- Claim C7: for every descriptor with `left ≥ right` (empty or
single-element range) and every cutoff, `parallel_mergesort` returns
immediately with the state unchanged, and the (at most one-element) range
is sorted. -/
theorem C7_trivial_range (cutoff : Nat) (s : State) (left right level : Nat)
    (h : right ≤ left) :
    parallel_mergesort cutoff s (buildArgs left right level) = s ∧
    List.Sorted (· ≤ ·)
      (sliceList (parallel_mergesort cutoff s (buildArgs left right level)).A
        left (right + 1 - left)) := by
  have hbase : parallel_mergesort cutoff s (buildArgs left right level) = s :=
    parallel_mergesort_base cutoff s (buildArgs left right level) h
  refine ⟨hbase, ?_⟩
  rw [hbase]
  have : right + 1 - left = 0 ∨ right + 1 - left = 1 := by omega
  rcases this with e | e <;> rw [e] <;> simp [sliceList]

theorem C7_trivial_range_witness :
    (0 : Nat) ≤ 0 ∧
    (parallel_mergesort 0 (State.mk (fun _ => 42) (fun _ => 0))
        (buildArgs 0 0 0) = State.mk (fun _ => 42) (fun _ => 0) ∧
     List.Sorted (· ≤ ·)
       (sliceList (parallel_mergesort 0 (State.mk (fun _ => 42) (fun _ => 0))
          (buildArgs 0 0 0)).A 0 (0 + 1 - 0))) :=
  ⟨by decide,
    C7_trivial_range 0 (State.mk (fun _ => 42) (fun _ => 0)) 0 0 0 (by decide)⟩

/-- Claim C8: in every fan-out step (`left < right`), the two child
descriptors built by `buildArgs` are exactly `{left, mid, level+1}` and
`{mid+1, right, level+1}`: their ranges are strictly disjoint, their union
is the parent range `[left, right]`, and each child's level is the parent's
level plus one (so the level never decreases along a recursion path). -/
theorem C8_fanout_children (left right level : Nat) (h : left < right) :
    (buildArgs left (midSplit left right) (level + 1)).left = left ∧
    (buildArgs left (midSplit left right) (level + 1)).right =
      midSplit left right ∧
    (buildArgs left (midSplit left right) (level + 1)).level = level + 1 ∧
    (buildArgs (midSplit left right + 1) right (level + 1)).left =
      midSplit left right + 1 ∧
    (buildArgs (midSplit left right + 1) right (level + 1)).right = right ∧
    (buildArgs (midSplit left right + 1) right (level + 1)).level = level + 1 ∧
    level < level + 1 ∧
    (∀ n, ¬((left ≤ n ∧ n ≤ midSplit left right) ∧
      (midSplit left right + 1 ≤ n ∧ n ≤ right))) ∧
    (∀ n, (left ≤ n ∧ n ≤ right) ↔
      ((left ≤ n ∧ n ≤ midSplit left right) ∨
        (midSplit left right + 1 ≤ n ∧ n ≤ right))) := by
  have hm := midSplit_bounds left right h
  refine ⟨rfl, rfl, rfl, rfl, rfl, rfl, by omega, ?_, ?_⟩
  · intro n
    omega
  · intro n
    constructor <;> intro hn
    · by_cases hc : n ≤ midSplit left right
      · exact Or.inl ⟨hn.1, hc⟩
      · exact Or.inr ⟨by omega, hn.2⟩
    · rcases hn with hn | hn <;> constructor <;> omega

theorem C8_fanout_children_witness :
    0 < 4 ∧
    ((buildArgs 0 (midSplit 0 4) (0 + 1)).left = 0 ∧
     (buildArgs 0 (midSplit 0 4) (0 + 1)).right = midSplit 0 4 ∧
     (buildArgs 0 (midSplit 0 4) (0 + 1)).level = 0 + 1 ∧
     (buildArgs (midSplit 0 4 + 1) 4 (0 + 1)).left = midSplit 0 4 + 1 ∧
     (buildArgs (midSplit 0 4 + 1) 4 (0 + 1)).right = 4 ∧
     (buildArgs (midSplit 0 4 + 1) 4 (0 + 1)).level = 0 + 1 ∧
     0 < 0 + 1 ∧
     (∀ n, ¬((0 ≤ n ∧ n ≤ midSplit 0 4) ∧ (midSplit 0 4 + 1 ≤ n ∧ n ≤ 4))) ∧
     (∀ n, (0 ≤ n ∧ n ≤ 4) ↔
       ((0 ≤ n ∧ n ≤ midSplit 0 4) ∨ (midSplit 0 4 + 1 ≤ n ∧ n ≤ 4)))) :=
  ⟨by decide, C8_fanout_children 0 4 0 (by decide)⟩

/-- Claim C9: sorting is idempotent: if the dataset is already sorted
ascending on `[0, N-1]`, then for every cutoff the sort leaves every element
of the dataset unchanged. -/
theorem C9_idempotence (N cutoff : Nat) (s : State) (hN : 1 ≤ N)
    (hsorted : ∀ i, i + 1 < N → s.A i ≤ s.A (i + 1)) :
    ∀ n, (parallel_mergesort cutoff s (buildArgs 0 (N - 1) 0)).A n = s.A n := by
  intro n
  rw [parallel_eq_serial_args]
  refine my_mergesort_idem s 0 (N - 1) ?_ n
  refine sorted_sliceList_of_adj s.A 0 ((N - 1) + 1 - 0) ?_
  intro m hm
  simpa using hsorted m (by omega)

theorem C9_idempotence_witness :
    1 ≤ 3 ∧
    (∀ i, i + 1 < 3 →
      (State.mk (fun n => (n : Int)) (fun _ => 0)).A i ≤
        (State.mk (fun n => (n : Int)) (fun _ => 0)).A (i + 1)) ∧
    ∀ n, (parallel_mergesort 2 (State.mk (fun n => (n : Int)) (fun _ => 0))
        (buildArgs 0 (3 - 1) 0)).A n =
      (State.mk (fun n => (n : Int)) (fun _ => 0)).A n :=
  ⟨by decide,
    fun i _ => by simp,
    C9_idempotence 3 2 (State.mk (fun n => (n : Int)) (fun _ => 0)) (by decide)
      (fun i _ => by simp)⟩

/-- Claim C10: the final contents of the dataset do not depend on the
initial contents of the scratch buffer: two runs on the same dataset and
cutoff whose states differ only in `B` produce identical final datasets. -/
theorem C10_scratch_independence (cutoff left right level : Nat) (s t : State)
    (hA : s.A = t.A) :
    (parallel_mergesort cutoff s (buildArgs left right level)).A =
      (parallel_mergesort cutoff t (buildArgs left right level)).A := by
  rw [parallel_eq_serial_args, parallel_eq_serial_args]
  exact my_mergesort_A_congr s left right t hA

theorem C10_scratch_independence_witness :
    (State.mk (fun n => (n : Int)) (fun _ => 0)).A =
      (State.mk (fun n => (n : Int)) (fun _ => 7)).A ∧
    (parallel_mergesort 1 (State.mk (fun n => (n : Int)) (fun _ => 0))
        (buildArgs 0 3 0)).A =
      (parallel_mergesort 1 (State.mk (fun n => (n : Int)) (fun _ => 7))
        (buildArgs 0 3 0)).A :=
  ⟨rfl,
    C10_scratch_independence 1 0 3 0
      (State.mk (fun n => (n : Int)) (fun _ => 0))
      (State.mk (fun n => (n : Int)) (fun _ => 7)) rfl⟩
